import Mathlib

/-!
Verification development for the tqm torrent-queue manager.

This file gives a shallow embedding of the hardlink-aware file-identity
tracking subsystem of the program:

* `pkg/torrentfilemap/struct.go` — the torrent-file index (`TorrentFileMap`):
  `addInternal`/`Add`, `Remove`, `IsUnique`, `Length`, `HasPath` with its
  per-path result cache, the linear and the binary-search variants of
  `hasPathDirect`, `hasPathWithMapping`;
* `pkg/torrentfilemap/mapping_cache.go` — `mappingCacheKey`,
  `buildMappedPathCache`;
* `pkg/hardlinkfilemap` — `FileID`, `considerPathMapping`, `AddByTorrent`,
  `countLinks`, `HardlinkedOutsideClient`, `IsTorrentUnique`;
* `cmd/orphan.go` — the orphan-folder pass (candidate ordering and the
  empty-at-check-time removal guard).

Go strings are modelled as `String` compared at code-point granularity
(`String.data : List Char`); for valid UTF-8 the byte-wise comparisons of
the Go standard library agree with code-point comparisons.  Go maps are
modelled as association lists with first-match lookup; the places where the
source iterates an unordered map are modelled by a list standing for one
iteration order.  The OS (`syscall.Stat` in `getFileID`) is modelled as an
explicit function `String → Option (FileID × Nat)` giving the identity and
link count of each existing path.
-/

namespace Tqm

/-! ### Lexicographic order on `List Char` (Go string `<`/`>=`) -/

/-- Strict lexicographic order on `List Char`, as Go compares strings. -/
def lexLtB : List Char → List Char → Bool
  | [], [] => false
  | [], _ :: _ => true
  | _ :: _, [] => false
  | a :: as, b :: bs => if a < b then true else if b < a then false else lexLtB as bs

theorem lexLtB_irrefl (l : List Char) : lexLtB l l = false := by
  induction l with
  | nil => rfl
  | cons a as ih => simp [lexLtB, ih]

theorem lexLtB_trans {a b c : List Char} (h₁ : lexLtB a b = true)
    (h₂ : lexLtB b c = true) : lexLtB a c = true := by
  induction a generalizing b c with
  | nil =>
    cases b with
    | nil => simp [lexLtB] at h₁
    | cons y ys =>
      cases c with
      | nil => simp [lexLtB] at h₂
      | cons z zs => rfl
  | cons x xs ih =>
    cases b with
    | nil => simp [lexLtB] at h₁
    | cons y ys =>
      cases c with
      | nil => simp [lexLtB] at h₂
      | cons z zs =>
        rw [lexLtB] at h₁ h₂ ⊢
        by_cases hxy : x < y
        · by_cases hyz : y < z
          · have hxz : x < z := lt_trans hxy hyz
            rw [if_pos hxz]
          · rw [if_neg hyz] at h₂
            by_cases hzy : z < y
            · rw [if_pos hzy] at h₂; exact absurd h₂ (by simp)
            · have hyz' : y = z := le_antisymm (not_lt.mp hzy) (not_lt.mp hyz)
              subst hyz'
              rw [if_pos hxy]
        · rw [if_neg hxy] at h₁
          by_cases hyx : y < x
          · rw [if_pos hyx] at h₁; exact absurd h₁ (by simp)
          · have hxy' : x = y := le_antisymm (not_lt.mp hyx) (not_lt.mp hxy)
            subst hxy'
            rw [if_neg (lt_irrefl x)] at h₁
            by_cases hyz : x < z
            · rw [if_pos hyz]
            · rw [if_neg hyz] at h₂ ⊢
              by_cases hzy : z < x
              · rw [if_pos hzy] at h₂; exact absurd h₂ (by simp)
              · rw [if_neg hzy] at h₂ ⊢
                exact ih h₁ h₂

theorem lexLtB_asymm {a b : List Char} (h : lexLtB a b = true) :
    lexLtB b a = false := by
  by_contra hc
  have hba : lexLtB b a = true := by
    cases hx : lexLtB b a with
    | true => rfl
    | false => exact absurd hx hc
  have := lexLtB_trans h hba
  rw [lexLtB_irrefl] at this
  exact Bool.false_ne_true this

theorem lexLtB_total {a b : List Char} (h₁ : lexLtB a b = false)
    (h₂ : lexLtB b a = false) : a = b := by
  induction a generalizing b with
  | nil =>
    cases b with
    | nil => rfl
    | cons y ys => simp [lexLtB] at h₁
  | cons x xs ih =>
    cases b with
    | nil => simp [lexLtB] at h₂
    | cons y ys =>
      simp only [lexLtB] at h₁ h₂
      by_cases hxy : x < y
      · simp [hxy] at h₁
      · by_cases hyx : y < x
        · simp [hyx, hxy] at h₂
        · have hx : x = y := le_antisymm (not_lt.mp hyx) (not_lt.mp hxy)
          subst hx
          simp only [lt_irrefl, if_false] at h₁ h₂
          rw [ih h₁ h₂]

/-! ### Association-list lookup (Go map access) -/

/-- Go map lookup, modelled as first-match search in an association list. -/
def alookup {α β : Type} [DecidableEq α] (k : α) : List (α × β) → Option β
  | [] => none
  | e :: es => if e.1 = k then some e.2 else alookup k es

theorem alookup_append_of_none {α β : Type} [DecidableEq α] (k : α)
    (l₁ l₂ : List (α × β)) (h : alookup k l₁ = none) :
    alookup k (l₁ ++ l₂) = alookup k l₂ := by
  induction l₁ with
  | nil => rfl
  | cons e es ih =>
    by_cases he : e.1 = k
    · simp [alookup, he] at h
    · simp only [alookup, he, if_false] at h
      simp [alookup, he, ih h]

theorem alookup_eq_none_iff {α β : Type} [DecidableEq α] (k : α)
    (l : List (α × β)) : alookup k l = none ↔ k ∉ l.map Prod.fst := by
  induction l with
  | nil => simp [alookup]
  | cons e es ih =>
    by_cases he : e.1 = k
    · simp [alookup, he]
    · simp [alookup, he, ih, Ne.symm he]

theorem alookup_mem {α β : Type} [DecidableEq α] {k : α} {b : β}
    {l : List (α × β)} (h : alookup k l = some b) : (k, b) ∈ l := by
  induction l with
  | nil => simp [alookup] at h
  | cons e es ih =>
    by_cases he : e.1 = k
    · simp only [alookup, he, if_true] at h
      have hb : e.2 = b := Option.some.inj h
      have he' : e = (k, b) := by
        obtain ⟨e1, e2⟩ := e
        simp only at he hb
        rw [he, hb]
      rw [← he']
      exact List.mem_cons_self _ _
    · simp only [alookup, he, if_false] at h
      exact List.mem_cons_of_mem _ (ih h)

/-! ### Prefix facts (Go `strings.HasPrefix`) and their interaction with `lexLtB` -/

theorem isPrefixOf_iff_append {l₁ l₂ : List Char} :
    l₁.isPrefixOf l₂ = true ↔ ∃ t, l₁ ++ t = l₂ := by
  induction l₁ generalizing l₂ with
  | nil => simp [List.isPrefixOf]
  | cons a as ih =>
    cases l₂ with
    | nil => simp [List.isPrefixOf]
    | cons b bs =>
      simp only [List.isPrefixOf, Bool.and_eq_true, beq_iff_eq, ih, List.cons_append,
        List.cons.injEq]
      constructor
      · rintro ⟨rfl, t, rfl⟩
        exact ⟨t, rfl, rfl⟩
      · rintro ⟨t, rfl, rfl⟩
        exact ⟨rfl, t, rfl⟩

theorem length_le_of_isPrefixOf {l₁ l₂ : List Char}
    (h : l₁.isPrefixOf l₂ = true) : l₁.length ≤ l₂.length := by
  obtain ⟨t, rfl⟩ := isPrefixOf_iff_append.mp h
  simp

theorem isPrefixOf_iff_take {l₁ l₂ : List Char} :
    l₁.isPrefixOf l₂ = true ↔ l₁ = l₂.take l₁.length := by
  constructor
  · intro h
    obtain ⟨t, rfl⟩ := isPrefixOf_iff_append.mp h
    rw [List.take_left]
  · intro h
    refine isPrefixOf_iff_append.mpr ⟨l₂.drop l₁.length, ?_⟩
    nth_rewrite 1 [h]
    exact List.take_append_drop _ _

theorem isPrefixOf_refl (l : List Char) : l.isPrefixOf l = true :=
  isPrefixOf_iff_append.mpr ⟨[], by simp⟩

theorem lexLtB_of_ne_isPrefixOf {p t : List Char} (hne : p ≠ t)
    (h : p.isPrefixOf t = true) : lexLtB p t = true := by
  induction p generalizing t with
  | nil =>
    cases t with
    | nil => exact absurd rfl hne
    | cons b bs => rfl
  | cons a as ih =>
    cases t with
    | nil => simp [List.isPrefixOf] at h
    | cons b bs =>
      simp only [List.isPrefixOf, Bool.and_eq_true, beq_iff_eq] at h
      obtain ⟨rfl, h2⟩ := h
      have hne' : as ≠ bs := by
        intro hc; exact hne (by rw [hc])
      rw [lexLtB, if_neg (lt_irrefl a), if_neg (lt_irrefl a)]
      exact ih hne' h2

theorem lexLtB_eq_false_of_isPrefixOf {p t : List Char}
    (h : p.isPrefixOf t = true) : lexLtB t p = false := by
  induction p generalizing t with
  | nil =>
    cases t with
    | nil => rfl
    | cons b bs => rfl
  | cons a as ih =>
    cases t with
    | nil => simp [List.isPrefixOf] at h
    | cons b bs =>
      simp only [List.isPrefixOf, Bool.and_eq_true, beq_iff_eq] at h
      obtain ⟨rfl, h2⟩ := h
      rw [lexLtB, if_neg (lt_irrefl a), if_neg (lt_irrefl a)]
      exact ih h2

/-- Betweenness: if `h` is lexicographically between `p` and a string that
starts with `p`, then `h` starts with `p` as well. -/
theorem isPrefixOf_of_between {p q t : List Char} (h₁ : lexLtB q p = false)
    (h₂ : lexLtB q t = true) (h₃ : p.isPrefixOf t = true) :
    p.isPrefixOf q = true := by
  induction p generalizing q t with
  | nil => cases q <;> rfl
  | cons a as ih =>
    cases t with
    | nil => simp [List.isPrefixOf] at h₃
    | cons c cs =>
      simp only [List.isPrefixOf, Bool.and_eq_true, beq_iff_eq] at h₃
      obtain ⟨rfl, h₃'⟩ := h₃
      cases q with
      | nil => simp [lexLtB] at h₁
      | cons b bs =>
        rw [lexLtB] at h₁ h₂
        by_cases hba : b < a
        · rw [if_pos hba] at h₁
          exact absurd h₁ (by simp)
        · rw [if_neg hba] at h₁ h₂
          by_cases hab : a < b
          · rw [if_pos hab] at h₂
            exact absurd h₂ (by simp)
          · rw [if_neg hab] at h₁ h₂
            have hba' : a = b := le_antisymm (not_lt.mp hba) (not_lt.mp hab)
            subst hba'
            simp only [List.isPrefixOf, Bool.and_eq_true, beq_iff_eq]
            exact ⟨trivial, ih h₁ h₂ h₃'⟩

/-! ### Insertion sort (model of Go `sort.Strings` / `sort.Slice`) -/

/-- Insert `x` into `l` before the first element it is `lt`-below. -/
def insertBy {α : Type} (lt : α → α → Bool) (x : α) : List α → List α
  | [] => [x]
  | y :: ys => if lt x y then x :: y :: ys else y :: insertBy lt x ys

/-- Sorting by repeated insertion; for a strict total `lt` this produces the
same ordered result as Go's `sort.Strings`/`sort.Slice`. -/
def sortBy {α : Type} (lt : α → α → Bool) (l : List α) : List α :=
  l.foldr (insertBy lt) []

theorem insertBy_perm {α : Type} (lt : α → α → Bool) (x : α) (l : List α) :
    List.Perm (insertBy lt x l) (x :: l) := by
  induction l with
  | nil => exact List.Perm.refl _
  | cons y ys ih =>
    rw [insertBy]
    by_cases h : lt x y = true
    · rw [if_pos h]
    · rw [if_neg h]
      exact ((ih.cons y).trans (List.Perm.swap x y ys))

theorem sortBy_perm {α : Type} (lt : α → α → Bool) (l : List α) :
    List.Perm (sortBy lt l) l := by
  induction l with
  | nil => exact List.Perm.refl _
  | cons y ys ih =>
    exact (insertBy_perm lt y (sortBy lt ys)).trans (ih.cons y)

theorem mem_sortBy {α : Type} (lt : α → α → Bool) (l : List α) (a : α) :
    a ∈ sortBy lt l ↔ a ∈ l :=
  (sortBy_perm lt l).mem_iff

theorem insertBy_pairwise {α : Type} {lt : α → α → Bool}
    (hasymm : ∀ a b, lt a b = true → lt b a = false)
    (htrans : ∀ a b c, lt a b = true → lt b c = true → lt a c = true)
    (x : α) {l : List α} (h : l.Pairwise (fun a b => lt b a = false)) :
    (insertBy lt x l).Pairwise (fun a b => lt b a = false) := by
  induction l with
  | nil => simp [insertBy]
  | cons y ys ih =>
    rw [List.pairwise_cons] at h
    obtain ⟨hy, hys⟩ := h
    rw [insertBy]
    by_cases hxy : lt x y = true
    · rw [if_pos hxy]
      refine List.pairwise_cons.mpr ⟨?_, List.pairwise_cons.mpr ⟨hy, hys⟩⟩
      intro z hz
      rcases List.mem_cons.mp hz with rfl | hz'
      · exact hasymm _ _ hxy
      · cases hzx : lt z x with
        | false => rfl
        | true =>
          have : lt z y = true := htrans _ _ _ hzx hxy
          rw [hy z hz'] at this
          exact absurd this (by simp)
    · rw [if_neg hxy]
      refine List.pairwise_cons.mpr ⟨?_, ih hys⟩
      intro z hz
      have hz' := (insertBy_perm lt x ys).mem_iff.mp hz
      rcases List.mem_cons.mp hz' with rfl | hz''
      · exact Bool.eq_false_iff.mpr hxy
      · exact hy z hz''

theorem sortBy_pairwise {α : Type} {lt : α → α → Bool}
    (hasymm : ∀ a b, lt a b = true → lt b a = false)
    (htrans : ∀ a b c, lt a b = true → lt b c = true → lt a c = true)
    (l : List α) :
    (sortBy lt l).Pairwise (fun a b => lt b a = false) := by
  induction l with
  | nil => simp [sortBy]
  | cons y ys ih => exact insertBy_pairwise hasymm htrans y ih

/-! ### Substring containment (Go `strings.Contains`) -/

/-- `isSubOf ned hay` holds when `ned` occurs contiguously inside `hay`;
this is Go's `strings.Contains(hay, ned)`. -/
def isSubOf (ned : List Char) : List Char → Bool
  | [] => ned.isPrefixOf []
  | c :: rest => ned.isPrefixOf (c :: rest) || isSubOf ned rest

theorem isSubOf_iff {ned hay : List Char} :
    isSubOf ned hay = true ↔ ∃ pre suf, pre ++ ned ++ suf = hay := by
  induction hay with
  | nil =>
    simp only [isSubOf, isPrefixOf_iff_append]
    constructor
    · rintro ⟨t, ht⟩
      obtain ⟨h1, h2⟩ := List.append_eq_nil.mp ht
      exact ⟨[], t, by simp [h1, h2]⟩
    · rintro ⟨pre, suf, h⟩
      rcases List.append_eq_nil.mp h with ⟨h1, h2⟩
      rcases List.append_eq_nil.mp h1 with ⟨h3, h4⟩
      exact ⟨[], by simp [h4]⟩

  | cons c rest ih =>
    simp only [isSubOf, Bool.or_eq_true, isPrefixOf_iff_append, ih]
    constructor
    · rintro (⟨t, ht⟩ | ⟨pre, suf, h⟩)
      · exact ⟨[], t, by simpa using ht⟩
      · exact ⟨c :: pre, suf, by simp [h]⟩
    · rintro ⟨pre, suf, h⟩
      cases pre with
      | nil =>
        left
        exact ⟨suf, by simpa using h⟩
      | cons d pre' =>
        right
        simp only [List.cons_append, List.cons.injEq] at h
        exact ⟨pre', suf, h.2⟩

theorem isSubOf_of_isPrefixOf {ned hay : List Char}
    (h : ned.isPrefixOf hay = true) : isSubOf ned hay = true := by
  obtain ⟨t, rfl⟩ := isPrefixOf_iff_append.mp h
  exact isSubOf_iff.mpr ⟨[], t, by simp⟩

theorem length_le_of_isSubOf {ned hay : List Char}
    (h : isSubOf ned hay = true) : ned.length ≤ hay.length := by
  obtain ⟨pre, suf, rfl⟩ := isSubOf_iff.mp h
  simp only [List.length_append]
  omega

/-! ### Data model: torrent records (`config.Torrent`, fields used by the
indices: content hash, file list, downloaded flag) -/

structure Torrent where
  Hash : String
  Files : List String
  Downloaded : Bool
  deriving DecidableEq

/-! ### TorrentFileMap (`pkg/torrentfilemap/struct.go`)

The Go field `torrentFileMap map[string]map[string]config.Torrent` maps a
file path to the set of hashes of torrents referencing it (the stored
`config.Torrent` value is never consulted by the operations modelled here,
only the key set and its size), modelled as an association list from path
to the list of registered hashes. -/

abbrev TFMap := List (String × List String)

def tfKeys (m : TFMap) : List String := m.map Prod.fst

/-- The set of torrent hashes registered for path `f` (empty when `f` is
not a key). -/
def bucketTF (m : TFMap) (f : String) : List String := (alookup f m).getD []

/-- Registering hash `h` in bucket `b`: Go's `map[hash] = torrent`,
idempotent per hash. -/
def putHash (h : String) (b : List String) : List String :=
  if h ∈ b then b else b ++ [h]

/-- One iteration of the loop of `addInternal` / `Add`: register `h`
under path `f`, creating the file entry if it has not been seen before. -/
def insertFileHash (m : TFMap) (f h : String) : TFMap :=
  match alookup f m with
  | some b => m.map (fun e => if e.1 = f then (f, putHash h b) else e)
  | none => m ++ [(f, [h])]

/-- `Add` (and `addInternal`, which performs the same map mutation). -/
def addTorrent (m : TFMap) (T : Torrent) : TFMap :=
  T.Files.foldl (fun acc f => insertFileHash acc f T.Hash) m

/-- One iteration of the loop of `Remove`: drop `h` from the entry of `f`,
deleting the entry when no hashes remain. -/
def removeFileHash (m : TFMap) (f h : String) : TFMap :=
  match alookup f m with
  | some b =>
    let b' := b.filter (fun x => x != h)
    if b' = [] then m.filter (fun e => e.1 != f)
    else m.map (fun e => if e.1 = f then (f, b') else e)
  | none => m

/-- `Remove`. -/
def removeTorrent (m : TFMap) (T : Torrent) : TFMap :=
  T.Files.foldl (fun acc f => removeFileHash acc f T.Hash) m

/-- `New`: builds the map from the client's torrent set (the Go map is
iterated in some order; the model takes one such order). -/
def newTFM (ts : List Torrent) : TFMap := ts.foldl addTorrent []

/-- `IsUnique`: false iff some file path of the torrent is referenced by
more than one torrent. -/
def isUniqueTF (m : TFMap) (T : Torrent) : Bool :=
  T.Files.all fun f =>
    match alookup f m with
    | some b => if 1 < b.length then false else true
    | none => true

/-- `Length`: number of distinct indexed paths. -/
def tfLength (m : TFMap) : Nat := m.length

/-- Well-formedness of the association-list image of the Go map: keys are
distinct and no bucket is empty. -/
def wfTF (m : TFMap) : Prop := (tfKeys m).Nodup ∧ ∀ e ∈ m, e.2 ≠ []

instance (m : TFMap) : Decidable (wfTF m) := by
  unfold wfTF
  infer_instance

/-! #### Pointwise behaviour of the TorrentFileMap operations -/

theorem alookup_append_left {α β : Type} [DecidableEq α] {k : α} {b : β}
    {l₁ : List (α × β)} (l₂ : List (α × β)) (h : alookup k l₁ = some b) :
    alookup k (l₁ ++ l₂) = some b := by
  induction l₁ with
  | nil => simp [alookup] at h
  | cons e es ih =>
    by_cases he : e.1 = k
    · simp only [alookup, he, if_true] at h
      simp [alookup, he, h]
    · simp only [alookup, he, if_false] at h
      simp [alookup, he, ih h]

theorem alookup_cons {α β : Type} [DecidableEq α] (e : α × β)
    (es : List (α × β)) (k : α) :
    alookup k (e :: es) = if e.1 = k then some e.2 else alookup k es := rfl

theorem alookup_mapUpdate {α β : Type} [DecidableEq α] (m : List (α × β)) (f : α)
    (v : β) (g : α) :
    alookup g (m.map (fun e => if e.1 = f then (f, v) else e)) =
      if g = f then ((alookup f m).map (fun _ => v)) else alookup g m := by
  induction m with
  | nil => simp [alookup]
  | cons e es ih =>
    by_cases hef : e.1 = f
    · by_cases hgf : g = f
      · subst hgf
        simp [alookup_cons, hef, ih]
      · have hfg : ¬ f = g := fun hc => hgf hc.symm
        have heg : ¬ e.1 = g := fun hc => hgf (hc.symm.trans hef)
        simp [alookup_cons, hef, hgf, hfg, heg, ih]
    · by_cases hgf : g = f
      · subst hgf
        simp [alookup_cons, hef, ih]
      · simp [alookup_cons, hef, hgf, ih]

theorem alookup_filterKey {α β : Type} [DecidableEq α] (m : List (α × β)) (f g : α) :
    alookup g (m.filter (fun e => e.1 != f)) =
      if g = f then none else alookup g m := by
  induction m with
  | nil => simp [alookup]
  | cons e es ih =>
    by_cases hef : e.1 = f
    · by_cases hgf : g = f
      · subst hgf
        simp [List.filter_cons, bne_iff_ne, hef, ih]
      · have heg : ¬ e.1 = g := fun hc => hgf (hc.symm.trans hef)
        have hfg : ¬ f = g := fun hc => hgf hc.symm
        simp [List.filter_cons, bne_iff_ne, alookup_cons, hef, hgf, heg, hfg, ih]
    · by_cases hgf : g = f
      · subst hgf
        simp [List.filter_cons, bne_iff_ne, alookup_cons, hef, ih]
      · simp [List.filter_cons, bne_iff_ne, alookup_cons, hef, hgf, ih]

theorem alookup_insertFileHash (m : TFMap) (f h g : String) :
    alookup g (insertFileHash m f h) =
      if g = f then some (putHash h (bucketTF m f)) else alookup g m := by
  unfold insertFileHash
  cases hm : alookup f m with
  | some b =>
    rw [alookup_mapUpdate, bucketTF, hm]
    by_cases hgf : g = f
    · simp [hgf, hm]
    · simp [hgf]
  | none =>
    by_cases hgf : g = f
    · subst hgf
      rw [alookup_append_of_none g m _ hm, if_pos rfl, bucketTF, hm]
      simp [alookup, putHash]
    · rw [if_neg hgf]
      cases hg : alookup g m with
      | some b' => exact alookup_append_left _ hg
      | none =>
        rw [alookup_append_of_none g m _ hg]
        have hfg : ¬ f = g := fun hc => hgf hc.symm
        simp [alookup_cons, alookup, hfg]

/-- The effect of one `Remove` iteration on the bucket of a key. -/
def rmKeyHash (h : String) : Option (List String) → Option (List String)
  | none => none
  | some b =>
    let b' := b.filter (fun x => x != h)
    if b' = [] then none else some b'

theorem alookup_removeFileHash (m : TFMap) (f h g : String) :
    alookup g (removeFileHash m f h) =
      if g = f then rmKeyHash h (alookup f m) else alookup g m := by
  unfold removeFileHash
  cases hm : alookup f m with
  | none =>
    by_cases hgf : g = f
    · simp [hgf, rmKeyHash, hm]
    · simp [hgf]
  | some b =>
    simp only [rmKeyHash]
    by_cases hb : b.filter (fun x => x != h) = []
    · rw [if_pos hb, alookup_filterKey]
      by_cases hgf : g = f
      · simp [hgf, hb]
      · simp [hgf]
    · rw [if_neg hb, alookup_mapUpdate]
      by_cases hgf : g = f
      · simp [hgf, hm, hb]
      · simp [hgf]

theorem mem_putHash (h : String) (b : List String) : h ∈ putHash h b := by
  unfold putHash
  by_cases hm : h ∈ b
  · rw [if_pos hm]
    exact hm
  · rw [if_neg hm]
    simp

theorem putHash_idem (h : String) (b : List String) :
    putHash h (putHash h b) = putHash h b := by
  conv_lhs => rw [putHash]
  rw [if_pos (mem_putHash h b)]

theorem putHash_ne_nil (h : String) (b : List String) : putHash h b ≠ [] :=
  List.ne_nil_of_mem (mem_putHash h b)

theorem putHash_of_not_mem {h : String} {b : List String} (hm : h ∉ b) :
    putHash h b = b ++ [h] := by
  simp [putHash, hm]

theorem rmKeyHash_idem (h : String) (x : Option (List String)) :
    rmKeyHash h (rmKeyHash h x) = rmKeyHash h x := by
  cases x with
  | none => rfl
  | some b =>
    simp only [rmKeyHash]
    by_cases hb : b.filter (fun x => x != h) = []
    · simp [hb, rmKeyHash]
    · rw [if_neg hb]
      simp only [rmKeyHash, List.filter_filter, Bool.and_self]
      rw [if_neg hb]

theorem alookup_foldIns (fs : List String) (m : TFMap) (h g : String) :
    alookup g (fs.foldl (fun acc f => insertFileHash acc f h) m) =
      if g ∈ fs then some (putHash h (bucketTF m g)) else alookup g m := by
  induction fs generalizing m with
  | nil => simp
  | cons f fs' ih =>
    rw [List.foldl_cons, ih]
    have hb : bucketTF (insertFileHash m f h) g =
        if g = f then putHash h (bucketTF m f) else bucketTF m g := by
      by_cases hgf : g = f <;> simp [bucketTF, alookup_insertFileHash, hgf]
    by_cases hgf : g = f
    · subst hgf
      by_cases hgfs : g ∈ fs'
      · simp [hgfs, hb, putHash_idem]
      · simp [hgfs, alookup_insertFileHash]
    · by_cases hgfs : g ∈ fs'
      · simp [hgfs, hb, hgf]
      · have : ¬ g ∈ f :: fs' := by simp [hgf, hgfs]
        simp [hgfs, this, alookup_insertFileHash, hgf]

theorem alookup_addTorrent (m : TFMap) (T : Torrent) (g : String) :
    alookup g (addTorrent m T) =
      if g ∈ T.Files then some (putHash T.Hash (bucketTF m g)) else alookup g m :=
  alookup_foldIns T.Files m T.Hash g

theorem alookup_foldRm (fs : List String) (m : TFMap) (h g : String) :
    alookup g (fs.foldl (fun acc f => removeFileHash acc f h) m) =
      if g ∈ fs then rmKeyHash h (alookup g m) else alookup g m := by
  induction fs generalizing m with
  | nil => simp
  | cons f fs' ih =>
    rw [List.foldl_cons, ih]
    by_cases hgf : g = f
    · subst hgf
      by_cases hgfs : g ∈ fs'
      · simp [hgfs, alookup_removeFileHash, rmKeyHash_idem]
      · simp [hgfs, alookup_removeFileHash]
    · by_cases hgfs : g ∈ fs'
      · simp [hgfs, alookup_removeFileHash, hgf]
      · have : ¬ g ∈ f :: fs' := by simp [hgf, hgfs]
        simp [hgfs, this, alookup_removeFileHash, hgf]

theorem alookup_removeTorrent (m : TFMap) (T : Torrent) (g : String) :
    alookup g (removeTorrent m T) =
      if g ∈ T.Files then rmKeyHash T.Hash (alookup g m) else alookup g m :=
  alookup_foldRm T.Files m T.Hash g

/-! #### Well-formedness preservation -/

theorem tfKeys_mapUpdate (m : TFMap) (f : String) (v : List String) :
    tfKeys (m.map (fun e => if e.1 = f then (f, v) else e)) = tfKeys m := by
  induction m with
  | nil => rfl
  | cons e es ih =>
    by_cases hef : e.1 = f
    · simp [tfKeys, hef] at ih ⊢
      exact ih
    · simp [tfKeys, hef] at ih ⊢
      exact ih

theorem wf_insertFileHash {m : TFMap} (f h : String) (hwf : wfTF m) :
    wfTF (insertFileHash m f h) := by
  obtain ⟨hkeys, hbuck⟩ := hwf
  unfold insertFileHash
  cases hm : alookup f m with
  | some b =>
    constructor
    · rw [tfKeys_mapUpdate]
      exact hkeys
    · intro e' he'
      obtain ⟨e, he, rfl⟩ := List.mem_map.mp he'
      by_cases hef : e.1 = f
      · simp only [hef, if_true]
        exact putHash_ne_nil h b
      · simp only [hef, if_false]
        exact hbuck e he
  | none =>
    constructor
    · have hf : f ∉ tfKeys m := (alookup_eq_none_iff f m).mp hm
      unfold tfKeys
      rw [List.map_append]
      refine List.nodup_append.mpr ⟨hkeys, List.nodup_singleton f, ?_⟩
      intro a ha hb
      simp only [List.map_cons, List.map_nil, List.mem_singleton] at hb
      exact hf (hb ▸ ha)
    · intro e' he'
      rcases List.mem_append.mp he' with he | he
      · exact hbuck e' he
      · simp only [List.mem_singleton] at he
        subst he
        simp

theorem wf_removeFileHash {m : TFMap} (f h : String) (hwf : wfTF m) :
    wfTF (removeFileHash m f h) := by
  obtain ⟨hkeys, hbuck⟩ := hwf
  unfold removeFileHash
  cases hm : alookup f m with
  | none => exact ⟨hkeys, hbuck⟩
  | some b =>
    by_cases hb : b.filter (fun x => x != h) = []
    · simp only [hb, if_pos]
      constructor
      · exact List.Nodup.sublist ((List.filter_sublist m).map Prod.fst) hkeys
      · intro e he
        exact hbuck e (List.mem_of_mem_filter he)
    · simp only [hb, if_neg, if_false]
      constructor
      · rw [tfKeys_mapUpdate]
        exact hkeys
      · intro e' he'
        obtain ⟨e, he, rfl⟩ := List.mem_map.mp he'
        by_cases hef : e.1 = f
        · simp only [hef, if_true]
          exact hb
        · simp only [hef, if_false]
          exact hbuck e he

theorem wf_addTorrent {m : TFMap} (T : Torrent) (hwf : wfTF m) :
    wfTF (addTorrent m T) := by
  unfold addTorrent
  induction T.Files generalizing m with
  | nil => exact hwf
  | cons f fs ih => exact ih (wf_insertFileHash f T.Hash hwf)

theorem wf_removeTorrent {m : TFMap} (T : Torrent) (hwf : wfTF m) :
    wfTF (removeTorrent m T) := by
  unfold removeTorrent
  induction T.Files generalizing m with
  | nil => exact hwf
  | cons f fs ih => exact ih (wf_removeFileHash f T.Hash hwf)

theorem wf_nil : wfTF [] := ⟨List.nodup_nil, by simp⟩

theorem wf_newTFM (ts : List Torrent) : wfTF (newTFM ts) := by
  unfold newTFM
  have : ∀ (l : List Torrent) (m : TFMap), wfTF m → wfTF (l.foldl addTorrent m) := by
    intro l
    induction l with
    | nil => exact fun m hm => hm
    | cons t l' ih => exact fun m hm => ih _ (wf_addTorrent t hm)
  exact this ts [] wf_nil

/-! #### Reachable states of the TorrentFileMap -/

/-- States of the torrent-file index reachable by `New` followed by any
sequence of `Add` and `Remove`. -/
inductive ReachableTF : TFMap → Prop where
  | fromNew (ts : List Torrent) : ReachableTF (newTFM ts)
  | addStep {m : TFMap} (T : Torrent) : ReachableTF m → ReachableTF (addTorrent m T)
  | removeStep {m : TFMap} (T : Torrent) : ReachableTF m → ReachableTF (removeTorrent m T)

theorem wf_of_reachable {m : TFMap} (h : ReachableTF m) : wfTF m := by
  induction h with
  | fromNew ts => exact wf_newTFM ts
  | addStep T _ ih => exact wf_addTorrent T ih
  | removeStep T _ ih => exact wf_removeTorrent T ih

/-! #### Add followed by Remove restores the map -/

theorem addRemove_alookup {m : TFMap} {T : Torrent} (hwf : wfTF m)
    (hnot : ∀ f ∈ T.Files, T.Hash ∉ bucketTF m f) (g : String) :
    alookup g (removeTorrent (addTorrent m T) T) = alookup g m := by
  rw [alookup_removeTorrent]
  by_cases hg : g ∈ T.Files
  · rw [if_pos hg, alookup_addTorrent, if_pos hg]
    have hnotg : T.Hash ∉ bucketTF m g := hnot g hg
    rw [putHash_of_not_mem hnotg]
    have hfilter : (bucketTF m g ++ [T.Hash]).filter (fun x => x != T.Hash) =
        bucketTF m g := by
      rw [List.filter_append]
      have h1 : (bucketTF m g).filter (fun x => x != T.Hash) = bucketTF m g :=
        List.filter_eq_self.mpr (fun a ha => by
          simp only [bne_iff_ne, ne_eq, decide_eq_true_eq]
          exact fun hc => hnotg (hc ▸ ha))
      have h2 : ([T.Hash] : List String).filter (fun x => x != T.Hash) = [] := by
        simp
      rw [h1, h2, List.append_nil]
    simp only [rmKeyHash, hfilter]
    cases hm : alookup g m with
    | none =>
      have : bucketTF m g = [] := by simp [bucketTF, hm]
      simp [this]
    | some b =>
      have hbg : bucketTF m g = b := by simp [bucketTF, hm]
      have hbne : b ≠ [] := hwf.2 (g, b) (alookup_mem hm)
      simp [hbg, hbne]
  · rw [if_neg hg, alookup_addTorrent, if_neg hg]

theorem mem_tfKeys_iff (m : TFMap) (g : String) :
    g ∈ tfKeys m ↔ alookup g m ≠ none := by
  rw [Ne, alookup_eq_none_iff]
  unfold tfKeys
  simp

theorem addRemove_keys_perm {m : TFMap} {T : Torrent} (hwf : wfTF m)
    (hnot : ∀ f ∈ T.Files, T.Hash ∉ bucketTF m f) :
    List.Perm (tfKeys (removeTorrent (addTorrent m T) T)) (tfKeys m) := by
  have hwf' : wfTF (removeTorrent (addTorrent m T) T) :=
    wf_removeTorrent T (wf_addTorrent T hwf)
  refine (List.perm_ext_iff_of_nodup hwf'.1 hwf.1).mpr ?_
  intro g
  rw [mem_tfKeys_iff, mem_tfKeys_iff, addRemove_alookup hwf hnot]

theorem addRemove_length {m : TFMap} {T : Torrent} (hwf : wfTF m)
    (hnot : ∀ f ∈ T.Files, T.Hash ∉ bucketTF m f) :
    tfLength (removeTorrent (addTorrent m T) T) = tfLength m := by
  have := (addRemove_keys_perm hwf hnot).length_eq
  simpa [tfKeys, tfLength] using this

/-! ### `hasPathDirect` — the two implementations

The older implementation scans every indexed path and tests
`strings.Contains(torrentPath, path)`.  The current implementation keeps a
sorted `pathIndex`, finds the first entry `>= path` with `sort.Search`, and
scans forward from it and backward from its predecessor, stopping as soon
as the entry no longer shares its leading `min(len(path), len(entry))`
characters with the probe. -/

/-- Linear-scan `hasPathDirect`: some indexed path contains `p`. -/
def hasPathDirectLinear (keys : List String) (p : String) : Bool :=
  keys.any (fun t => isSubOf p.data t.data)

theorem hasPathDirectLinear_iff (keys : List String) (p : String) :
    hasPathDirectLinear keys p = true ↔ ∃ t ∈ keys, isSubOf p.data t.data = true :=
  List.any_eq_true

/-- The early-termination test of the binary-search `hasPathDirect`:
`!strings.HasPrefix(torrentPath, path[:m]) && !strings.HasPrefix(path,
torrentPath[:m])` with `m = min(len(path), len(torrentPath))`. -/
def scanBreak (p t : List Char) : Bool :=
  !((p.take (min p.length t.length)).isPrefixOf t) &&
    !((t.take (min p.length t.length)).isPrefixOf p)

/-- One direction of the scan around the `sort.Search` position: stop on
`scanBreak`, report success on `strings.Contains(torrentPath, path)`. -/
def scanLoop (p : List Char) : List String → Bool
  | [] => false
  | t :: rest =>
    if scanBreak p t.data then false
    else if isSubOf p t.data then true
    else scanLoop p rest

/-- `sort.Strings` over the key set, as `rebuildIndexInternal` builds
`pathIndex`. -/
def sortPaths (l : List String) : List String :=
  sortBy (fun a b => lexLtB a.data b.data) l

/-- Binary-search `hasPathDirect` over a sorted `pathIndex`: `sort.Search`
locates the first entry `>= path` (the length of the longest strictly
smaller initial segment), then the two scan loops run forward and
backward. -/
def hasPathDirectIdx (pathIndex : List String) (p : String) : Bool :=
  scanLoop p.data
      (pathIndex.drop (pathIndex.takeWhile (fun t => lexLtB t.data p.data)).length) ||
    scanLoop p.data
      ((pathIndex.take (pathIndex.takeWhile (fun t => lexLtB t.data p.data)).length).reverse)

theorem scanBreak_eq_false_iff {p t : List Char} :
    scanBreak p t = false ↔
      p.take (min p.length t.length) = t.take (min p.length t.length) := by
  have hm1 : min p.length t.length ≤ p.length := Nat.min_le_left _ _
  have hm2 : min p.length t.length ≤ t.length := Nat.min_le_right _ _
  have hA : (p.take (min p.length t.length)).isPrefixOf t = true ↔
      p.take (min p.length t.length) = t.take (min p.length t.length) := by
    rw [isPrefixOf_iff_take, List.length_take, Nat.min_eq_left hm1]
  have hB : (t.take (min p.length t.length)).isPrefixOf p = true ↔
      t.take (min p.length t.length) = p.take (min p.length t.length) := by
    rw [isPrefixOf_iff_take, List.length_take, Nat.min_eq_left hm2]
  unfold scanBreak
  rw [Bool.and_eq_false_iff]
  constructor
  · rintro (h | h)
    · rw [Bool.not_eq_false'] at h
      exact hA.mp h
    · rw [Bool.not_eq_false'] at h
      exact (hB.mp h).symm
  · intro h
    left
    rw [Bool.not_eq_false']
    exact hA.mpr h

theorem scanBreak_eq_false_of_isPrefixOf {p t : List Char}
    (h : p.isPrefixOf t = true) : scanBreak p t = false := by
  have hle : p.length ≤ t.length := length_le_of_isPrefixOf h
  have hm : min p.length t.length = p.length := Nat.min_eq_left hle
  rw [scanBreak_eq_false_iff, hm, List.take_length]
  exact isPrefixOf_iff_take.mp h

theorem scanBreak_eq_true_of_ge {p t : List Char} (hge : lexLtB t p = false)
    (hnp : ¬ p.isPrefixOf t = true) : scanBreak p t = true := by
  by_contra hc
  have hb : scanBreak p t = false := Bool.eq_false_iff.mpr hc
  have heq := scanBreak_eq_false_iff.mp hb
  by_cases hl : p.length ≤ t.length
  · have hm : min p.length t.length = p.length := Nat.min_eq_left hl
    rw [hm, List.take_length] at heq
    exact hnp (isPrefixOf_iff_take.mpr heq)
  · have hl' : t.length ≤ p.length := Nat.le_of_lt (Nat.lt_of_not_le hl)
    have hm : min p.length t.length = t.length := Nat.min_eq_right hl'
    rw [hm, List.take_length] at heq
    have htp : t.isPrefixOf p = true := isPrefixOf_iff_take.mpr heq.symm
    have hne : t ≠ p := by
      intro hc'
      subst hc'
      exact hl (le_refl _)
    have := lexLtB_of_ne_isPrefixOf hne htp
    rw [hge] at this
    exact Bool.false_ne_true this

theorem isPrefixOf_of_isSubOf_of_not_break {p t : List Char}
    (hsub : isSubOf p t = true) (hb : scanBreak p t = false) :
    p.isPrefixOf t = true := by
  have hle : p.length ≤ t.length := length_le_of_isSubOf hsub
  have heq := scanBreak_eq_false_iff.mp hb
  rw [Nat.min_eq_left hle, List.take_length] at heq
  exact isPrefixOf_iff_take.mpr heq

theorem scanLoop_false_of_lt {p : List Char} {ys : List String}
    (hall : ∀ t ∈ ys, lexLtB t.data p = true) : scanLoop p ys = false := by
  induction ys with
  | nil => rfl
  | cons t rest ih =>
    rw [scanLoop]
    by_cases hbr : scanBreak p t.data = true
    · rw [if_pos hbr]
    · rw [if_neg hbr]
      have hb : scanBreak p t.data = false := Bool.eq_false_iff.mpr hbr
      by_cases hsub : isSubOf p t.data = true
      · have hp : p.isPrefixOf t.data = true :=
          isPrefixOf_of_isSubOf_of_not_break hsub hb
        have := lexLtB_eq_false_of_isPrefixOf hp
        rw [hall t (List.mem_cons_self _ _)] at this
        exact absurd this.symm Bool.false_ne_true
      · rw [if_neg hsub]
        exact ih (fun t' ht' => hall t' (List.mem_cons_of_mem _ ht'))

theorem scanLoop_fwd {p : List Char} {ys : List String}
    (hge : ∀ t ∈ ys, lexLtB t.data p = false)
    (hsort : ys.Pairwise (fun a b => lexLtB a.data b.data = true)) :
    (scanLoop p ys = true ↔ ∃ t ∈ ys, p.isPrefixOf t.data = true) := by
  cases ys with
  | nil =>
    show false = true ↔ ∃ t ∈ ([] : List String), p.isPrefixOf t.data = true
    simp
  | cons t rest =>
    rw [scanLoop]
    by_cases hpfx : p.isPrefixOf t.data = true
    · rw [if_neg (by rw [scanBreak_eq_false_of_isPrefixOf hpfx]; simp),
        if_pos (isSubOf_of_isPrefixOf hpfx)]
      exact iff_of_true rfl ⟨t, List.mem_cons_self _ _, hpfx⟩
    · have hbr : scanBreak p t.data = true :=
        scanBreak_eq_true_of_ge (hge t (List.mem_cons_self _ _)) hpfx
      rw [if_pos hbr]
      refine iff_of_false (by simp) ?_
      rintro ⟨t', ht', hp'⟩
      rcases List.mem_cons.mp ht' with rfl | ht''
      · exact hpfx hp'
      · have hlt : lexLtB t.data t'.data = true :=
          (List.pairwise_cons.mp hsort).1 t' ht''
        exact hpfx (isPrefixOf_of_between (hge t (List.mem_cons_self _ _)) hlt hp')

theorem drop_length_takeWhile {α : Type} (l : List α) (q : α → Bool) :
    l.drop (l.takeWhile q).length = l.dropWhile q := by
  induction l with
  | nil => rfl
  | cons x xs ih =>
    by_cases hq : q x = true
    · simp [List.takeWhile_cons, List.dropWhile_cons, hq, ih]
    · simp [List.takeWhile_cons, List.dropWhile_cons, hq]

theorem take_length_takeWhile {α : Type} (l : List α) (q : α → Bool) :
    l.take (l.takeWhile q).length = l.takeWhile q := by
  induction l with
  | nil => rfl
  | cons x xs ih =>
    by_cases hq : q x = true
    · simp [List.takeWhile_cons, hq, ih]
    · simp [List.takeWhile_cons, hq]

theorem all_dropWhile_ge {p : String} {xs : List String}
    (hsort : xs.Pairwise (fun a b => lexLtB a.data b.data = true)) :
    ∀ t ∈ xs.dropWhile (fun t => lexLtB t.data p.data),
      lexLtB t.data p.data = false := by
  induction xs with
  | nil => simp
  | cons x rest ih =>
    rw [List.pairwise_cons] at hsort
    by_cases hq : lexLtB x.data p.data = true
    · simp only [List.dropWhile_cons, hq, if_true]
      exact ih hsort.2
    · simp only [List.dropWhile_cons, hq, if_false]
      intro t ht
      rcases List.mem_cons.mp ht with rfl | ht'
      · exact Bool.eq_false_iff.mpr hq
      · cases htp : lexLtB t.data p.data with
        | false => rfl
        | true =>
          have hxt : lexLtB x.data t.data = true := hsort.1 t ht'
          have := lexLtB_trans hxt htp
          exact absurd this hq

/-- Characterisation of the binary-search `hasPathDirect` on a strictly
sorted index: it reports exactly the probes that are a prefix of some
indexed path. -/
theorem hasPathDirectIdx_iff {xs : List String} {p : String}
    (hsort : xs.Pairwise (fun a b => lexLtB a.data b.data = true)) :
    (hasPathDirectIdx xs p = true ↔ ∃ t ∈ xs, p.data.isPrefixOf t.data = true) := by
  unfold hasPathDirectIdx
  rw [drop_length_takeWhile, take_length_takeWhile]
  have hback : scanLoop p.data
      ((xs.takeWhile (fun t => lexLtB t.data p.data)).reverse) = false := by
    apply scanLoop_false_of_lt
    intro t ht
    have ht' : t ∈ xs.takeWhile (fun t : String => lexLtB t.data p.data) :=
      List.mem_reverse.mp ht
    exact @List.mem_takeWhile_imp String (fun t : String => lexLtB t.data p.data) xs t ht'
  rw [hback, Bool.or_false]
  have hge := all_dropWhile_ge (p := p) hsort
  have hsort' := List.Pairwise.sublist
    (List.dropWhile_sublist (fun t : String => lexLtB t.data p.data)) hsort
  rw [scanLoop_fwd hge hsort']
  have hsplit := List.takeWhile_append_dropWhile
    (fun t : String => lexLtB t.data p.data) xs
  constructor
  · rintro ⟨t, ht, hp⟩
    refine ⟨t, ?_, hp⟩
    rw [← hsplit]
    exact List.mem_append_right _ ht
  · rintro ⟨t, ht, hp⟩
    refine ⟨t, ?_, hp⟩
    rw [← hsplit] at ht
    rcases List.mem_append.mp ht with ht' | ht'
    · have := List.mem_takeWhile_imp ht'
      rw [lexLtB_eq_false_of_isPrefixOf hp] at this
      exact absurd this Bool.false_ne_true
    · exact ht'

theorem sortPaths_pairwise {l : List String} (hnd : l.Nodup) :
    (sortPaths l).Pairwise (fun a b => lexLtB a.data b.data = true) := by
  have h1 : (sortPaths l).Pairwise
      (fun a b : String => lexLtB b.data a.data = false) :=
    @sortBy_pairwise String (fun a b : String => lexLtB a.data b.data)
      (fun a b h => lexLtB_asymm h)
      (fun a b c h₁ h₂ => lexLtB_trans h₁ h₂) l
  have h2 : (sortPaths l).Nodup :=
    (sortBy_perm (fun a b : String => lexLtB a.data b.data) l).nodup_iff.mpr hnd
  refine (h1.and h2).imp ?_
  rintro a b ⟨hba, hne⟩
  cases hab : lexLtB a.data b.data with
  | true => rfl
  | false =>
    have : a.data = b.data := lexLtB_total hab hba
    exact absurd (String.ext this) hne

theorem mem_sortPaths (l : List String) (a : String) : a ∈ sortPaths l ↔ a ∈ l :=
  mem_sortBy _ l a

/-- The binary-search `hasPathDirect` applied to the sorted index of a
well-formed map answers prefix containment over the key set. -/
theorem hasPathDirectIdx_sortPaths_iff {l : List String} (hnd : l.Nodup)
    (p : String) :
    (hasPathDirectIdx (sortPaths l) p = true ↔
      ∃ t ∈ l, p.data.isPrefixOf t.data = true) := by
  rw [hasPathDirectIdx_iff (sortPaths_pairwise hnd)]
  constructor
  · rintro ⟨t, ht, hp⟩
    exact ⟨t, (mem_sortPaths l t).mp ht, hp⟩
  · rintro ⟨t, ht, hp⟩
    exact ⟨t, (mem_sortPaths l t).mpr ht, hp⟩

/-! ### Path mapping (`strings.Replace(s, from, to, 1)` and
`considerPathMapping` of `pkg/hardlinkfilemap`) -/

/-- Go `strings.Replace(s, old, nw, 1)`: replace the first occurrence of
`old` in `s`, or return `s` unchanged when `old` does not occur. -/
def replaceFirst (s old nw : List Char) : List Char :=
  if old.isPrefixOf s then nw ++ s.drop old.length
  else
    match s with
    | [] => []
    | c :: rest => c :: replaceFirst rest old nw

def strReplaceFirst (s old nw : String) : String :=
  ⟨replaceFirst s.data old.data nw.data⟩

/-- `considerPathMapping`: the Go code ranges over the unordered
`torrentPathMapping` map and applies the first rule whose `from` is a
prefix of the path; the list argument stands for one iteration order of
that map. -/
def considerPathMapping (mapping : List (String × String)) (p : String) : String :=
  match mapping with
  | [] => p
  | (mapFrom, mapTo) :: rest =>
    if mapFrom.data.isPrefixOf p.data then strReplaceFirst p mapFrom mapTo
    else considerPathMapping rest p

/-! ### The mapping cache (`pkg/torrentfilemap/mapping_cache.go`) -/

/-- `mappingCacheKey`: `from=to` pairs joined by `|` over the sorted
source paths. -/
def mappingCacheKey (mapping : List (String × String)) : String :=
  if mapping = [] then "" else
    String.intercalate "|" ((sortPaths (mapping.map Prod.fst)).map
      (fun k => k ++ "=" ++ ((alookup k mapping).getD "")))

/-- `buildMappedPathCache`: every mapping rule is applied once (first
occurrence each) to every indexed path, in map-iteration order. -/
def buildMappedPaths (torrentPaths : List String)
    (mapping : List (String × String)) : List String :=
  torrentPaths.map (fun t =>
    mapping.foldl (fun acc pr => strReplaceFirst acc pr.1 pr.2) t)

/-! ### The stateful TorrentFileMap: `pathIndex`, per-path result cache
(`pathCache`, a `sync.Map` keyed by the raw query path) and the
per-mapping-configuration cache (`mappingCache`). -/

structure TFMState where
  tfMap : TFMap
  pathIndex : List String
  pathCache : List (String × Bool)
  mappingCaches : List (String × List String)
  deriving DecidableEq

/-- `New`: inserts every torrent, builds the index; both caches start
empty. -/
def NewS (ts : List Torrent) : TFMState :=
  { tfMap := newTFM ts
    pathIndex := sortPaths (tfKeys (newTFM ts))
    pathCache := []
    mappingCaches := [] }

/-- `Add`: mutates the map, rebuilds the index and invalidates the mapping
cache; the per-path `pathCache` is left untouched. -/
def AddS (s : TFMState) (T : Torrent) : TFMState :=
  { tfMap := addTorrent s.tfMap T
    pathIndex := sortPaths (tfKeys (addTorrent s.tfMap T))
    pathCache := s.pathCache
    mappingCaches := [] }

/-- `Remove`: the index is rebuilt and the mapping cache invalidated only
when some path entry was deleted; the per-path `pathCache` is left
untouched. -/
def RemoveS (s : TFMState) (T : Torrent) : TFMState :=
  if tfKeys (removeTorrent s.tfMap T) = tfKeys s.tfMap then
    { s with tfMap := removeTorrent s.tfMap T }
  else
    { tfMap := removeTorrent s.tfMap T
      pathIndex := sortPaths (tfKeys (removeTorrent s.tfMap T))
      pathCache := s.pathCache
      mappingCaches := [] }

/-- `mappingCacheManager.getOrBuild`. -/
def getOrBuildMapping (s : TFMState) (mapping : List (String × String)) :
    List String × TFMState :=
  match alookup (mappingCacheKey mapping) s.mappingCaches with
  | some mp => (mp, s)
  | none =>
    (buildMappedPaths s.pathIndex mapping,
      { s with mappingCaches := s.mappingCaches ++
          [(mappingCacheKey mapping, buildMappedPaths s.pathIndex mapping)] })

/-- `hasPathWithMapping`: linear scan of the precomputed mapped paths. -/
def hasPathWithMappingS (s : TFMState) (p : String)
    (mapping : List (String × String)) : Bool × TFMState :=
  ((getOrBuildMapping s mapping).1.any (fun mappedPath => isSubOf p.data mappedPath.data),
    (getOrBuildMapping s mapping).2)

/-- `HasPath`: consult the per-path cache first (keyed by the raw path
only), otherwise run the direct or the mapped query and store the result
under the raw path. -/
def HasPathS (s : TFMState) (p : String) (mapping : List (String × String)) :
    Bool × TFMState :=
  match alookup p s.pathCache with
  | some v => (v, s)
  | none =>
    if mapping = [] then
      ((hasPathDirectIdx s.pathIndex p),
        { s with pathCache := s.pathCache ++ [(p, hasPathDirectIdx s.pathIndex p)] })
    else
      ((hasPathWithMappingS s p mapping).1,
        { (hasPathWithMappingS s p mapping).2 with
          pathCache := (hasPathWithMappingS s p mapping).2.pathCache ++
            [(p, (hasPathWithMappingS s p mapping).1)] })

theorem hasPathWithMappingS_pathCache (s : TFMState) (p : String)
    (mapping : List (String × String)) :
    (hasPathWithMappingS s p mapping).2.pathCache = s.pathCache := by
  unfold hasPathWithMappingS getOrBuildMapping
  cases alookup (mappingCacheKey mapping) s.mappingCaches <;> rfl

/-! ### HardlinkFileMap (`pkg/hardlinkfilemap`) -/

/-- `FileID`: device + inode, the OS identity of a storage object. -/
structure FileID where
  Device : Nat
  Inode : Nat
  deriving DecidableEq

abbrev HLMap := List (FileID × List String)

/-- The bucket of paths known to share identity `id` (empty when
absent). -/
def hlBucket (hm : HLMap) (id : FileID) : List String := (alookup id hm).getD []

/-- One iteration of the `AddByTorrent` loop: resolve the mapped path via
the OS model `fs` (`getFileID`), skip unresolvable paths, and register the
mapped path in its identity bucket, de-duplicating by path. -/
def hlAddFile (fs : String → Option (FileID × Nat))
    (mapping : List (String × String)) (acc : HLMap) (f : String) : HLMap :=
  match fs (considerPathMapping mapping f) with
  | none => acc
  | some (id, _) =>
    match alookup id acc with
    | some paths =>
      if considerPathMapping mapping f ∈ paths then acc
      else acc.map (fun e =>
        if e.1 = id then (id, paths ++ [considerPathMapping mapping f]) else e)
    | none => acc ++ [(id, [considerPathMapping mapping f])]

/-- `AddByTorrent`: non-downloaded torrents contribute nothing. -/
def AddByTorrent (fs : String → Option (FileID × Nat))
    (mapping : List (String × String)) (hm : HLMap) (T : Torrent) : HLMap :=
  if T.Downloaded then T.Files.foldl (hlAddFile fs mapping) hm else hm

/-- `countLinks`: `(inmap, total)` — paths known to the index for the
file's identity, and the OS-reported link count; `none` when the path does
not resolve. -/
def countLinks (fs : String → Option (FileID × Nat))
    (mapping : List (String × String)) (hm : HLMap) (f : String) :
    Option (Nat × Nat) :=
  match fs (considerPathMapping mapping f) with
  | none => none
  | some (id, nlink) =>
    match alookup id hm with
    | some paths => some (paths.length, nlink)
    | none => some (0, nlink)

/-- `HardlinkedOutsideClient`. -/
def HardlinkedOutsideClient (fs : String → Option (FileID × Nat))
    (mapping : List (String × String)) (hm : HLMap) (T : Torrent) : Bool :=
  if T.Downloaded then
    T.Files.any (fun f =>
      match countLinks fs mapping hm f with
      | none => false
      | some (inmap, total) => total != inmap)
  else false

/-- `IsTorrentUnique`: a file that fails to resolve makes the torrent
non-unique; a bucket with more than one path makes it non-unique. -/
def IsTorrentUnique (fs : String → Option (FileID × Nat))
    (mapping : List (String × String)) (hm : HLMap) (T : Torrent) : Bool :=
  if T.Downloaded then
    T.Files.all (fun f =>
      match countLinks fs mapping hm f with
      | none => false
      | some (c, _) => if 1 < c then false else true)
  else true

/-! ### The orphan-folder pass (`cmd/orphan.go`) -/

/-- Path depth: number of separators. -/
def depthOf (p : String) : Nat := p.data.count '/'

/-- The candidate ordering of the folder pass: Go sorts with
`len(orphanFolderPaths[i]) > len(orphanFolderPaths[j])`, i.e. by string
length descending. -/
def sortOrphanFolders (l : List String) : List String :=
  sortBy (fun a b => decide (b.length < a.length)) l

/-- `paths.IsDirEmpty` over a filesystem modelled as the list of existing
paths: a directory is empty when no existing path lies strictly inside
it. -/
def isDirEmptyB (st : List String) (d : String) : Bool :=
  !(st.any (fun q => (d.data ++ ['/']).isPrefixOf q.data))

/-- The sequential folder-removal loop: walk the (already sorted)
candidates, remove a folder from the filesystem only when it is empty at
check time, and record the removals. -/
def processOrphanFolders (st : List String) (cands : List String) :
    List String × List String :=
  cands.foldl (fun acc d =>
    if isDirEmptyB acc.1 d then (acc.1.filter (fun q => q != d), acc.2 ++ [d])
    else acc) (st, [])

/-! ### Behaviour of the HardlinkFileMap operations -/

theorem hlBucket_mono {fs : String → Option (FileID × Nat)}
    {mapping : List (String × String)} {acc : HLMap} {f : String}
    {id : FileID} {s : String} (h : s ∈ hlBucket acc id) :
    s ∈ hlBucket (hlAddFile fs mapping acc f) id := by
  unfold hlAddFile
  cases hfs : fs (considerPathMapping mapping f) with
  | none => exact h
  | some pr =>
    obtain ⟨id', n⟩ := pr
    cases ha : alookup id' acc with
    | some paths =>
      simp only [ha]
      by_cases hmem : considerPathMapping mapping f ∈ paths
      · simp only [hmem, if_true]
        exact h
      · simp only [hmem, if_false]
        unfold hlBucket at h ⊢
        rw [alookup_mapUpdate]
        by_cases hid : id = id'
        · subst hid
          rw [if_pos rfl, ha]
          rw [ha] at h
          simp only [Option.getD_some] at h ⊢
          exact List.mem_append_left _ h
        · rw [if_neg hid]
          exact h
    | none =>
      simp only [ha]
      unfold hlBucket at h ⊢
      cases hb : alookup id acc with
      | some bb =>
        rw [alookup_append_left _ hb]
        rw [hb] at h
        exact h
      | none =>
        rw [hb] at h
        simp at h

theorem hlAddFile_mem {fs : String → Option (FileID × Nat)}
    {mapping : List (String × String)} (acc : HLMap) {f : String}
    {id : FileID} {n : Nat}
    (hfs : fs (considerPathMapping mapping f) = some (id, n)) :
    considerPathMapping mapping f ∈ hlBucket (hlAddFile fs mapping acc f) id := by
  unfold hlAddFile
  simp only [hfs]
  cases ha : alookup id acc with
  | some paths =>
    simp only [ha]
    by_cases hmem : considerPathMapping mapping f ∈ paths
    · simp only [hmem, if_true]
      unfold hlBucket
      rw [ha]
      exact hmem
    · simp only [hmem, if_false]
      unfold hlBucket
      rw [alookup_mapUpdate, if_pos rfl, ha]
      simp
  | none =>
    simp only [ha]
    unfold hlBucket
    rw [alookup_append_of_none _ _ _ ha]
    simp [alookup]

theorem hlBucket_mono_fold {fs : String → Option (FileID × Nat)}
    {mapping : List (String × String)} {hm : HLMap} {id : FileID} {s : String}
    (files : List String) (h : s ∈ hlBucket hm id) :
    s ∈ hlBucket (files.foldl (hlAddFile fs mapping) hm) id := by
  induction files generalizing hm with
  | nil => exact h
  | cons x xs ih => exact ih (hlBucket_mono h)

theorem hlBucket_mem_fold {fs : String → Option (FileID × Nat)}
    {mapping : List (String × String)} {hm : HLMap} {id : FileID} {n : Nat}
    {files : List String} {f : String} (hf : f ∈ files)
    (hfs : fs (considerPathMapping mapping f) = some (id, n)) :
    considerPathMapping mapping f ∈
      hlBucket (files.foldl (hlAddFile fs mapping) hm) id := by
  induction files generalizing hm with
  | nil => exact absurd hf (List.not_mem_nil f)
  | cons x xs ih =>
    rcases List.mem_cons.mp hf with rfl | hf'
    · exact hlBucket_mono_fold xs (hlAddFile_mem hm hfs)
    · exact ih hf'

theorem mem_AddByTorrent {fs : String → Option (FileID × Nat)}
    {mapping : List (String × String)} {hm : HLMap} {id : FileID} {n : Nat}
    {T : Torrent} {f : String} (hd : T.Downloaded = true) (hf : f ∈ T.Files)
    (hfs : fs (considerPathMapping mapping f) = some (id, n)) :
    considerPathMapping mapping f ∈ hlBucket (AddByTorrent fs mapping hm T) id := by
  unfold AddByTorrent
  rw [hd, if_pos rfl]
  exact hlBucket_mem_fold hf hfs

theorem mono_AddByTorrent {fs : String → Option (FileID × Nat)}
    {mapping : List (String × String)} {hm : HLMap} {id : FileID} {s : String}
    (T : Torrent) (h : s ∈ hlBucket hm id) :
    s ∈ hlBucket (AddByTorrent fs mapping hm T) id := by
  unfold AddByTorrent
  by_cases hd : T.Downloaded = true
  · rw [hd, if_pos rfl]
    exact hlBucket_mono_fold T.Files h
  · rw [Bool.eq_false_iff.mpr hd]
    simpa using h

theorem two_mem_two_le_length {α : Type} [DecidableEq α] {a b : α} {l : List α}
    (ha : a ∈ l) (hb : b ∈ l) (hne : a ≠ b) : 2 ≤ l.length := by
  have hb' : b ∈ l.erase a := (List.mem_erase_of_ne (fun hc => hne hc.symm)).mpr hb
  have h1 : 0 < (l.erase a).length := List.length_pos.mpr (List.ne_nil_of_mem hb')
  have hl := List.length_erase_of_mem ha
  omega

/-! ### Behaviour of the orphan-folder pass -/

/-- One step of the folder-removal loop. -/
def pofStep (acc : List String × List String) (d : String) :
    List String × List String :=
  if isDirEmptyB acc.1 d then (acc.1.filter (fun q => q != d), acc.2 ++ [d])
  else acc

theorem processOrphanFolders_eq_foldl (st : List String) (cands : List String) :
    processOrphanFolders st cands = cands.foldl pofStep (st, []) := rfl

theorem pof_removed_spec (cands : List String) (st rem : List String)
    (d : String) (h : d ∈ (cands.foldl pofStep (st, rem)).2) :
    d ∈ rem ∨ ∃ pre suf, cands = pre ++ d :: suf ∧
      isDirEmptyB (pre.foldl pofStep (st, rem)).1 d = true := by
  induction cands generalizing st rem with
  | nil => exact Or.inl h
  | cons c rest ih =>
    rw [List.foldl_cons] at h
    by_cases hce : isDirEmptyB st c = true
    · rw [show pofStep (st, rem) c =
          (st.filter (fun q => q != c), rem ++ [c]) from by
        simp [pofStep, hce]] at h
      rcases ih _ _ h with hl | ⟨pre, suf, heq, hemp⟩
      · rcases List.mem_append.mp hl with hr | hc'
        · exact Or.inl hr
        · rw [List.mem_singleton] at hc'
          subst hc'
          exact Or.inr ⟨[], rest, rfl, hce⟩
      · refine Or.inr ⟨c :: pre, suf, by rw [heq, List.cons_append], ?_⟩
        rw [List.foldl_cons, show pofStep (st, rem) c =
            (st.filter (fun q => q != c), rem ++ [c]) from by
          simp [pofStep, hce]]
        exact hemp
    · rw [show pofStep (st, rem) c = (st, rem) from by
        simp [pofStep, hce]] at h
      rcases ih _ _ h with hl | ⟨pre, suf, heq, hemp⟩
      · exact Or.inl hl
      · refine Or.inr ⟨c :: pre, suf, by rw [heq, List.cons_append], ?_⟩
        rw [List.foldl_cons, show pofStep (st, rem) c = (st, rem) from by
          simp [pofStep, hce]]
        exact hemp

theorem sortOrphanFolders_perm (l : List String) :
    List.Perm (sortOrphanFolders l) l :=
  sortBy_perm _ l

theorem sortOrphanFolders_length_sorted (l : List String) :
    (sortOrphanFolders l).Pairwise (fun a b => b.length ≤ a.length) := by
  have h := @sortBy_pairwise String (fun a b : String => decide (b.length < a.length))
    (fun a b h => by
      simp only [decide_eq_true_eq] at h
      simp only [decide_eq_false_iff_not, not_lt]
      omega)
    (fun a b c h₁ h₂ => by
      simp only [decide_eq_true_eq] at h₁ h₂ ⊢
      omega) l
  refine h.imp ?_
  intro a b hab
  simp only [decide_eq_false_iff_not, not_lt] at hab
  exact hab

theorem length_lt_of_inside {a b : String}
    (h : (a.data ++ ['/']).isPrefixOf b.data = true) : a.length < b.length := by
  have := length_le_of_isPrefixOf h
  simp only [List.length_append, List.length_singleton] at this
  have ha : a.length = a.data.length := rfl
  have hb : b.length = b.data.length := rfl
  omega

theorem sortOrphanFolders_child_first (l : List String) :
    (sortOrphanFolders l).Pairwise
      (fun a b => ¬ (a.data ++ ['/']).isPrefixOf b.data = true) := by
  refine (sortOrphanFolders_length_sorted l).imp ?_
  intro a b hab hpre
  have := length_lt_of_inside hpre
  omega

theorem countLinks_eq_none {fs : String → Option (FileID × Nat)}
    {mapping : List (String × String)} {hm : HLMap} {f : String}
    (hfs : fs (considerPathMapping mapping f) = none) :
    countLinks fs mapping hm f = none := by
  unfold countLinks
  simp [hfs]

theorem countLinks_eq_some {fs : String → Option (FileID × Nat)}
    {mapping : List (String × String)} {hm : HLMap} {f : String}
    {id : FileID} {nlink : Nat}
    (hfs : fs (considerPathMapping mapping f) = some (id, nlink)) :
    countLinks fs mapping hm f = some ((hlBucket hm id).length, nlink) := by
  unfold countLinks
  simp only [hfs]
  cases ha : alookup id hm <;> simp [hlBucket, ha]

theorem hocPred_iff {fs : String → Option (FileID × Nat)}
    {mapping : List (String × String)} {hm : HLMap} {f : String} :
    ((match countLinks fs mapping hm f with
      | none => false
      | some (inmap, total) => total != inmap) = true) ↔
    ∃ id nlink, fs (considerPathMapping mapping f) = some (id, nlink) ∧
      nlink ≠ (hlBucket hm id).length := by
  cases hfs : fs (considerPathMapping mapping f) with
  | none =>
    rw [countLinks_eq_none hfs]
    simp
  | some pr =>
    obtain ⟨id, nlink⟩ := pr
    rw [countLinks_eq_some hfs]
    show (nlink != (hlBucket hm id).length) = true ↔ _
    simp only [bne_iff_ne, ne_eq]
    constructor
    · intro hne
      exact ⟨id, nlink, rfl, hne⟩
    · rintro ⟨id', nlink', hfs', hne⟩
      have h2 := Option.some.inj hfs'
      rw [Prod.mk.injEq] at h2
      obtain ⟨rfl, rfl⟩ := h2
      exact hne

theorem ituPred_iff {fs : String → Option (FileID × Nat)}
    {mapping : List (String × String)} {hm : HLMap} {f : String} :
    ((match countLinks fs mapping hm f with
      | none => false
      | some (c, _) => if 1 < c then false else true) = true) ↔
    ∃ id nlink, fs (considerPathMapping mapping f) = some (id, nlink) ∧
      (hlBucket hm id).length ≤ 1 := by
  cases hfs : fs (considerPathMapping mapping f) with
  | none =>
    rw [countLinks_eq_none hfs]
    simp
  | some pr =>
    obtain ⟨id, nlink⟩ := pr
    rw [countLinks_eq_some hfs]
    show (if 1 < (hlBucket hm id).length then false else true) = true ↔ _
    constructor
    · intro hle
      refine ⟨id, nlink, rfl, ?_⟩
      by_cases hb : 1 < (hlBucket hm id).length
      · rw [if_pos hb] at hle
        exact absurd hle Bool.false_ne_true
      · omega
    · rintro ⟨id', nlink', hfs', hle⟩
      have h2 := Option.some.inj hfs'
      rw [Prod.mk.injEq] at h2
      obtain ⟨rfl, rfl⟩ := h2
      rw [if_neg (by omega)]

theorem itu_false_of_big_bucket {fs : String → Option (FileID × Nat)}
    {mapping : List (String × String)} {hm : HLMap} {T : Torrent}
    {A : String} {id : FileID} {n : Nat} (hd : T.Downloaded = true)
    (hA : A ∈ T.Files) (hfs : fs (considerPathMapping mapping A) = some (id, n))
    (hlen : 1 < (hlBucket hm id).length) :
    IsTorrentUnique fs mapping hm T = false := by
  unfold IsTorrentUnique
  rw [hd, if_pos rfl]
  apply Bool.eq_false_iff.mpr
  intro hall
  have h := List.all_eq_true.mp hall A hA
  simp only [countLinks_eq_some hfs] at h
  have h' : (if 1 < (hlBucket hm id).length then false else true) = true := h
  rw [if_pos hlen] at h'
  exact Bool.false_ne_true h'

theorem bool_eq_of_iff {a b : Bool} (h : a = true ↔ b = true) : a = b := by
  cases a <;> cases b <;> simp_all

theorem hasPathS_cache_hit {s : TFMState} {p : String} {v : Bool}
    (m : List (String × String)) (h : alookup p s.pathCache = some v) :
    HasPathS s p m = (v, s) := by
  unfold HasPathS
  simp [h]

theorem hasPathS_cache_miss {s : TFMState} {p : String}
    (m : List (String × String)) (h : alookup p s.pathCache = none) :
    (HasPathS s p m).2.pathCache = s.pathCache ++ [(p, (HasPathS s p m).1)] := by
  unfold HasPathS
  simp only [h]
  by_cases hm : m = []
  · simp [hm]
  · simp [hm, hasPathWithMappingS_pathCache]

/-! ### Concrete records used by witnesses and counterexamples -/

def tA : Torrent := ⟨"h1", ["/d/a.mkv"], true⟩
def tB : Torrent := ⟨"h2", ["/d/a.mkv"], true⟩
def tC : Torrent := ⟨"h3", ["/d/b.mkv"], true⟩

/-- OS model with one file hardlinked three times on disk but only twice in
the index, and one singly-linked file. -/
def fsHoc : String → Option (FileID × Nat) := fun p =>
  if p = "/w/f1" then some (⟨1, 10⟩, 3)
  else if p = "/w/f2" then some (⟨1, 11⟩, 1) else none

def hmHoc : HLMap := [(⟨1, 10⟩, ["/w/f1", "/w/f1b"]), (⟨1, 11⟩, ["/w/f2"])]

/-- OS model with a single resolvable path of identity `⟨1, 7⟩`. -/
def fsAbsent : String → Option (FileID × Nat) := fun p =>
  if p = "/f" then some (⟨1, 7⟩, 1) else none

/-- OS model where two distinct paths share one identity (hardlinks). -/
def fsShared : String → Option (FileID × Nat) := fun p =>
  if p = "/s/a" then some (⟨2, 5⟩, 2)
  else if p = "/s/b" then some (⟨2, 5⟩, 2) else none

def tS1 : Torrent := ⟨"hA", ["/s/a"], true⟩
def tS2 : Torrent := ⟨"hB", ["/s/b"], true⟩

/-! ### The claims -/

/-- C1 (counterexample): the claim states that with an empty mapping
`HasPath`/`hasPathDirect` answers bidirectional substring containment —
true also when some indexed path is a substring of the probe.  With the
index holding exactly `/d/a.mkv` and the probe `/d/a.mkv/x`, the indexed
path is a substring of the probe, so the claimed predicate holds, but both
the binary-search and the linear implementations of `hasPathDirect` return
false (they test only `strings.Contains(torrentPath, path)`). -/
theorem c1_counterexample :
    ¬ ((hasPathDirectIdx (sortPaths (tfKeys (newTFM [tA]))) "/d/a.mkv/x" = true) ↔
        ∃ t ∈ tfKeys (newTFM [tA]),
          (isSubOf "/d/a.mkv/x".data t.data || isSubOf t.data "/d/a.mkv/x".data) = true) ∧
    ¬ ((hasPathDirectLinear (tfKeys (newTFM [tA])) "/d/a.mkv/x" = true) ↔
        ∃ t ∈ tfKeys (newTFM [tA]),
          (isSubOf "/d/a.mkv/x".data t.data || isSubOf t.data "/d/a.mkv/x".data) = true) := by
  constructor
  · decide
  · decide

/-- C1 (amended): with an empty mapping the linear-scan `hasPathDirect`
returns true iff the probe is a substring of some indexed path (one
direction only), and the binary-search `hasPathDirect` over the sorted
index of a duplicate-free key set returns true iff the probe is a prefix
of some indexed path. -/
theorem c1_amended_hasPathDirect (ts : List String) (p : String)
    (hnd : ts.Nodup) :
    (hasPathDirectLinear ts p = true ↔ ∃ t ∈ ts, isSubOf p.data t.data = true) ∧
    (hasPathDirectIdx (sortPaths ts) p = true ↔
      ∃ t ∈ ts, p.data.isPrefixOf t.data = true) :=
  ⟨hasPathDirectLinear_iff ts p, hasPathDirectIdx_sortPaths_iff hnd p⟩

theorem c1_witness :
    ([("/d/a.mkv" : String), "/d/b.mkv"].Nodup) ∧
    (hasPathDirectIdx (sortPaths ["/d/a.mkv", "/d/b.mkv"]) "/d/a" = true ↔
      ∃ t ∈ [("/d/a.mkv" : String), "/d/b.mkv"], "/d/a".data.isPrefixOf t.data = true) :=
  ⟨by decide,
    (c1_amended_hasPathDirect ["/d/a.mkv", "/d/b.mkv"] "/d/a" (by decide)).2⟩

/-- C2 (code evaluated at the failing input): querying `/d/a.mkv` on an
empty map caches false under the raw path; `Add` of a torrent holding
exactly that file invalidates only the mapping cache, so the second
`HasPath` call returns the stale cached false although the rebuilt path
index now contains the path (the direct query would answer true). -/
theorem c2_stale_path_cache :
    ((HasPathS (AddS (HasPathS (NewS []) "/d/a.mkv" []).2 tA) "/d/a.mkv" []).1 = false) ∧
    (hasPathDirectIdx (AddS (HasPathS (NewS []) "/d/a.mkv" []).2 tA).pathIndex
      "/d/a.mkv" = true) := by
  constructor
  · decide
  · decide

/-- C3 (counterexample): the two lists are the same mapping table in two
iteration orders (Go ranges over the unordered `torrentPathMapping` map),
both rules match the input `/a/b/c`, and `considerPathMapping` returns
different results for the two orders — the substitution applied depends on
map iteration order, so the first-declared-rule determinism claimed does
not hold. -/
theorem c3_counterexample :
    List.Perm [(("/a" : String), ("/x" : String)), ("/a/b", "/y")]
      [(("/a/b" : String), ("/y" : String)), ("/a", "/x")] ∧
    considerPathMapping [("/a", "/x"), ("/a/b", "/y")] "/a/b/c" ≠
      considerPathMapping [("/a/b", "/y"), ("/a", "/x")] "/a/b/c" := by
  constructor
  · exact List.Perm.swap ("/a/b", "/y") ("/a", "/x") []
  · decide

/-- C3 (amended): for a fixed iteration order, `considerPathMapping`
applies at most one substitution — the first rule in that order whose
`from` is a prefix of the input, replacing its first occurrence — and
returns the path unchanged when no rule matches.  Which rule is "first"
is a property of the iteration order of the unordered Go map, not of any
declaration order. -/
theorem c3_amended_first_match :
    (∀ (pre rest : List (String × String)) (fr nw p : String),
      (∀ q ∈ pre, q.1.data.isPrefixOf p.data = false) →
      fr.data.isPrefixOf p.data = true →
      considerPathMapping (pre ++ (fr, nw) :: rest) p = strReplaceFirst p fr nw) ∧
    (∀ (mapping : List (String × String)) (p : String),
      (∀ q ∈ mapping, q.1.data.isPrefixOf p.data = false) →
      considerPathMapping mapping p = p) := by
  constructor
  · intro pre rest fr nw p hpre hfr
    induction pre with
    | nil =>
      unfold considerPathMapping
      rw [List.nil_append]
      simp only [hfr, if_true]
    | cons q pre' ih =>
      obtain ⟨q1, q2⟩ := q
      have hq1 : q1.data.isPrefixOf p.data = false :=
        hpre (q1, q2) (List.mem_cons_self _ _)
      rw [List.cons_append]
      unfold considerPathMapping
      rw [hq1]
      simp only [Bool.false_eq_true, if_false]
      exact ih (fun q hq => hpre q (List.mem_cons_of_mem _ hq))
  · intro mapping p hnone
    induction mapping with
    | nil => rfl
    | cons q rest ih =>
      obtain ⟨q1, q2⟩ := q
      have hq1 : q1.data.isPrefixOf p.data = false :=
        hnone (q1, q2) (List.mem_cons_self _ _)
      unfold considerPathMapping
      rw [hq1]
      simp only [Bool.false_eq_true, if_false]
      exact ih (fun q hq => hnone q (List.mem_cons_of_mem _ hq))

theorem c3_witness :
    (considerPathMapping [("/mnt", "/data"), ("/a", "/b")] "/a/file" =
      strReplaceFirst "/a/file" "/a" "/b") ∧
    (considerPathMapping [("/mnt", "/data")] "/other" = "/other") :=
  ⟨c3_amended_first_match.1 [("/mnt", "/data")] [] "/a" "/b" "/a/file"
      (by decide) (by decide),
    c3_amended_first_match.2 [("/mnt", "/data")] "/other" (by decide)⟩

/-- C4: for a non-downloaded torrent `HardlinkedOutsideClient` is false;
for a downloaded torrent all of whose (mapped) file paths resolve, it is
true iff some file's OS-reported link count differs from the number of
paths stored in that file's identity bucket (0 when the bucket is
absent). -/
theorem c4_hardlinked_outside_client (fs : String → Option (FileID × Nat))
    (mapping : List (String × String)) (hm : HLMap) (T : Torrent) :
    (T.Downloaded = false → HardlinkedOutsideClient fs mapping hm T = false) ∧
    (T.Downloaded = true →
      (∀ f ∈ T.Files, fs (considerPathMapping mapping f) ≠ none) →
      (HardlinkedOutsideClient fs mapping hm T = true ↔
        ∃ f ∈ T.Files, ∃ id nlink,
          fs (considerPathMapping mapping f) = some (id, nlink) ∧
          nlink ≠ (hlBucket hm id).length)) := by
  constructor
  · intro hd
    unfold HardlinkedOutsideClient
    rw [hd]
    simp
  · intro hd _
    unfold HardlinkedOutsideClient
    rw [hd, if_pos rfl, List.any_eq_true]
    constructor
    · rintro ⟨f, hf, hpred⟩
      exact ⟨f, hf, hocPred_iff.mp hpred⟩
    · rintro ⟨f, hf, hex⟩
      exact ⟨f, hf, hocPred_iff.mpr hex⟩

theorem c4_witness :
    (HardlinkedOutsideClient fsHoc [] hmHoc ⟨"h5", ["/x"], false⟩ = false) ∧
    (HardlinkedOutsideClient fsHoc [] hmHoc ⟨"h4", ["/w/f1", "/w/f2"], true⟩ = true) :=
  ⟨(c4_hardlinked_outside_client fsHoc [] hmHoc ⟨"h5", ["/x"], false⟩).1 rfl,
    ((c4_hardlinked_outside_client fsHoc [] hmHoc
        ⟨"h4", ["/w/f1", "/w/f2"], true⟩).2 rfl (by decide)).mpr
      ⟨"/w/f1", by decide, ⟨1, 10⟩, 3, by decide, by decide⟩⟩

/-- C5 (counterexample): a downloaded torrent whose only file resolves to
identity `⟨1, 7⟩` queried against the empty index: the identity bucket is
absent (0 paths, not exactly one), yet `IsTorrentUnique` returns true —
the code accepts buckets of size at most one, not exactly one. -/
theorem c5_counterexample :
    ¬ ((IsTorrentUnique fsAbsent [] [] ⟨"h1", ["/f"], true⟩ = true) ↔
        (hlBucket ([] : HLMap) ⟨1, 7⟩).length = 1) := by
  decide

/-- C5 (amended): a non-downloaded torrent is vacuously unique; a
downloaded torrent is unique iff every file resolves and its identity
bucket holds at most one path; and if `A` of `T1` and `B` of `T2` resolve
to the same identity with distinct mapped paths, then after
`AddByTorrent(T1); AddByTorrent(T2)` both mapped paths lie in that
identity's bucket and `IsTorrentUnique` is false for both torrents. -/
theorem c5_amended_is_torrent_unique (fs : String → Option (FileID × Nat))
    (mapping : List (String × String)) (hm : HLMap) (T : Torrent) :
    (T.Downloaded = false → IsTorrentUnique fs mapping hm T = true) ∧
    (T.Downloaded = true →
      (IsTorrentUnique fs mapping hm T = true ↔
        ∀ f ∈ T.Files, ∃ id nlink,
          fs (considerPathMapping mapping f) = some (id, nlink) ∧
          (hlBucket hm id).length ≤ 1)) ∧
    (∀ (T1 T2 : Torrent) (A B : String) (id : FileID) (n1 n2 : Nat),
      T1.Downloaded = true → T2.Downloaded = true → A ∈ T1.Files → B ∈ T2.Files →
      fs (considerPathMapping mapping A) = some (id, n1) →
      fs (considerPathMapping mapping B) = some (id, n2) →
      considerPathMapping mapping A ≠ considerPathMapping mapping B →
      considerPathMapping mapping A ∈
          hlBucket (AddByTorrent fs mapping (AddByTorrent fs mapping hm T1) T2) id ∧
        considerPathMapping mapping B ∈
          hlBucket (AddByTorrent fs mapping (AddByTorrent fs mapping hm T1) T2) id ∧
        IsTorrentUnique fs mapping
          (AddByTorrent fs mapping (AddByTorrent fs mapping hm T1) T2) T1 = false ∧
        IsTorrentUnique fs mapping
          (AddByTorrent fs mapping (AddByTorrent fs mapping hm T1) T2) T2 = false) := by
  refine ⟨?_, ?_, ?_⟩
  · intro hd
    unfold IsTorrentUnique
    rw [hd]
    simp
  · intro hd
    unfold IsTorrentUnique
    rw [hd, if_pos rfl, List.all_eq_true]
    constructor
    · intro hall f hf
      exact ituPred_iff.mp (hall f hf)
    · intro hall f hf
      exact ituPred_iff.mpr (hall f hf)
  · intro T1 T2 A B id n1 n2 hd1 hd2 hA hB hfsA hfsB hne
    have hmA : considerPathMapping mapping A ∈
        hlBucket (AddByTorrent fs mapping (AddByTorrent fs mapping hm T1) T2) id :=
      mono_AddByTorrent T2 (mem_AddByTorrent hd1 hA hfsA)
    have hmB : considerPathMapping mapping B ∈
        hlBucket (AddByTorrent fs mapping (AddByTorrent fs mapping hm T1) T2) id :=
      mem_AddByTorrent hd2 hB hfsB
    have hlen : 1 < (hlBucket
        (AddByTorrent fs mapping (AddByTorrent fs mapping hm T1) T2) id).length := by
      have := two_mem_two_le_length hmA hmB hne
      omega
    exact ⟨hmA, hmB, itu_false_of_big_bucket hd1 hA hfsA hlen,
      itu_false_of_big_bucket hd2 hB hfsB hlen⟩

theorem c5_witness :
    (IsTorrentUnique fsShared [] [] ⟨"hN", ["/q"], false⟩ = true) ∧
    (considerPathMapping [] "/s/a" ∈
        hlBucket (AddByTorrent fsShared [] (AddByTorrent fsShared [] [] tS1) tS2) ⟨2, 5⟩ ∧
      considerPathMapping [] "/s/b" ∈
        hlBucket (AddByTorrent fsShared [] (AddByTorrent fsShared [] [] tS1) tS2) ⟨2, 5⟩ ∧
      IsTorrentUnique fsShared []
        (AddByTorrent fsShared [] (AddByTorrent fsShared [] [] tS1) tS2) tS1 = false ∧
      IsTorrentUnique fsShared []
        (AddByTorrent fsShared [] (AddByTorrent fsShared [] [] tS1) tS2) tS2 = false) :=
  ⟨(c5_amended_is_torrent_unique fsShared [] [] ⟨"hN", ["/q"], false⟩).1 rfl,
    (c5_amended_is_torrent_unique fsShared [] [] tS1).2.2 tS1 tS2 "/s/a" "/s/b"
      ⟨2, 5⟩ 2 2 rfl rfl (by decide) (by decide) (by decide) (by decide) (by decide)⟩

/-- C6: the end-to-end scenario — torrents h1 and h2 both hold
`/d/a.mkv` (cross-seed), h3 holds `/d/b.mkv`.  After indexing all three,
h1 and h2 are not unique, h3 is, and the index has 2 distinct paths;
after removing h1, h2 becomes unique and the length is still 2.  The
final conjunct checks the same six facts for every iteration order of the
torrent map. -/
theorem c6_end_to_end_scenario :
    (isUniqueTF (newTFM [tA, tB, tC]) tA = false) ∧
    (isUniqueTF (newTFM [tA, tB, tC]) tB = false) ∧
    (isUniqueTF (newTFM [tA, tB, tC]) tC = true) ∧
    (tfLength (newTFM [tA, tB, tC]) = 2) ∧
    (isUniqueTF (removeTorrent (newTFM [tA, tB, tC]) tA) tB = true) ∧
    (tfLength (removeTorrent (newTFM [tA, tB, tC]) tA) = 2) ∧
    (([[tA, tB, tC], [tA, tC, tB], [tB, tA, tC], [tB, tC, tA], [tC, tA, tB],
        [tC, tB, tA]].all (fun l =>
      (isUniqueTF (newTFM l) tA == false) && (isUniqueTF (newTFM l) tB == false) &&
      (isUniqueTF (newTFM l) tC == true) && (tfLength (newTFM l) == 2) &&
      (isUniqueTF (removeTorrent (newTFM l) tA) tB == true) &&
      (tfLength (removeTorrent (newTFM l) tA) == 2))) = true) := by
  refine ⟨by decide, by decide, by decide, by decide, by decide, by decide, by decide⟩

/-- C7: adding a torrent none of whose (path, hash) pairs are present and
then removing it restores a well-formed map exactly: same `Length`, same
per-path lookup, and the same containment answer for every queried path in
both `hasPathDirect` implementations. -/
theorem c7_add_remove_inverse (m : TFMap) (T : Torrent) (hwf : wfTF m)
    (hnot : ∀ f ∈ T.Files, T.Hash ∉ bucketTF m f) :
    tfLength (removeTorrent (addTorrent m T) T) = tfLength m ∧
    (∀ p, alookup p (removeTorrent (addTorrent m T) T) = alookup p m) ∧
    (∀ p, hasPathDirectLinear (tfKeys (removeTorrent (addTorrent m T) T)) p =
      hasPathDirectLinear (tfKeys m) p) ∧
    (∀ p, hasPathDirectIdx (sortPaths (tfKeys (removeTorrent (addTorrent m T) T))) p =
      hasPathDirectIdx (sortPaths (tfKeys m)) p) := by
  have hwf' : wfTF (removeTorrent (addTorrent m T) T) :=
    wf_removeTorrent T (wf_addTorrent T hwf)
  have hlook := addRemove_alookup hwf hnot
  have hmem : ∀ g, g ∈ tfKeys (removeTorrent (addTorrent m T) T) ↔ g ∈ tfKeys m := by
    intro g
    rw [mem_tfKeys_iff, mem_tfKeys_iff, hlook g]
  refine ⟨addRemove_length hwf hnot, hlook, ?_, ?_⟩
  · intro p
    apply bool_eq_of_iff
    rw [hasPathDirectLinear_iff, hasPathDirectLinear_iff]
    constructor
    · rintro ⟨t, ht, hp⟩
      exact ⟨t, (hmem t).mp ht, hp⟩
    · rintro ⟨t, ht, hp⟩
      exact ⟨t, (hmem t).mpr ht, hp⟩
  · intro p
    apply bool_eq_of_iff
    rw [hasPathDirectIdx_sortPaths_iff hwf'.1, hasPathDirectIdx_sortPaths_iff hwf.1]
    constructor
    · rintro ⟨t, ht, hp⟩
      exact ⟨t, (hmem t).mp ht, hp⟩
    · rintro ⟨t, ht, hp⟩
      exact ⟨t, (hmem t).mpr ht, hp⟩

theorem c7_witness :
    (wfTF (newTFM [tC]) ∧ ∀ f ∈ tA.Files, tA.Hash ∉ bucketTF (newTFM [tC]) f) ∧
    tfLength (removeTorrent (addTorrent (newTFM [tC]) tA) tA) = tfLength (newTFM [tC]) :=
  ⟨⟨by decide, by decide⟩,
    (c7_add_remove_inverse (newTFM [tC]) tA (by decide) (by decide)).1⟩

/-- C8: in every state reachable by `New`, `Add` and `Remove`, no per-path
set is left empty, and a path is a key of the index iff at least one
torrent hash is registered for it. -/
theorem c8_index_invariant (m : TFMap) (h : ReachableTF m) :
    (∀ e ∈ m, e.2 ≠ []) ∧
    (∀ f, f ∈ tfKeys m ↔ ∃ hsh, hsh ∈ bucketTF m f) := by
  have hwf := wf_of_reachable h
  refine ⟨hwf.2, ?_⟩
  intro f
  constructor
  · intro hf
    rw [mem_tfKeys_iff] at hf
    cases hb : alookup f m with
    | none => exact absurd hb hf
    | some b =>
      have hne : b ≠ [] := hwf.2 (f, b) (alookup_mem hb)
      obtain ⟨x, hx⟩ := List.exists_mem_of_ne_nil b hne
      refine ⟨x, ?_⟩
      simp [bucketTF, hb, hx]
  · rintro ⟨hsh, hhsh⟩
    rw [mem_tfKeys_iff]
    intro hnone
    rw [bucketTF, hnone] at hhsh
    simp at hhsh

theorem c8_witness :
    ∃ hsh, hsh ∈ bucketTF (addTorrent (newTFM [tC]) tA) "/d/a.mkv" :=
  ((c8_index_invariant (addTorrent (newTFM [tC]) tA)
      (ReachableTF.addStep tA (ReachableTF.fromNew [tC]))).2 "/d/a.mkv").mp
    (by decide)

/-- C9 (counterexample): the folder pass orders candidates by string
length descending, not by path depth: `/dddddddddd` (depth 1, length 11)
is processed before `/a/b/c` (depth 3, length 6), so the processing order
is not depth-descending as claimed. -/
theorem c9_counterexample :
    sortOrphanFolders ["/a/b/c", "/dddddddddd"] = ["/dddddddddd", "/a/b/c"] ∧
    ¬ (sortOrphanFolders ["/a/b/c", "/dddddddddd"]).Pairwise
        (fun a b => depthOf b ≤ depthOf a) := by
  constructor
  · decide
  · decide

/-- C9 (amended): the candidate order of the folder pass is a permutation
of the candidates sorted by string length descending — in particular no
folder is processed before any folder lying strictly inside it — and a
folder is removed only when it is empty in the filesystem state at its
check time (files having been processed before the folder pass starts, by
the sequential structure of the scan). -/
theorem c9_amended_folder_pass (l : List String) :
    List.Perm (sortOrphanFolders l) l ∧
    (sortOrphanFolders l).Pairwise (fun a b => b.length ≤ a.length) ∧
    (sortOrphanFolders l).Pairwise
      (fun a b => ¬ (a.data ++ ['/']).isPrefixOf b.data = true) ∧
    (∀ st d, d ∈ (processOrphanFolders st (sortOrphanFolders l)).2 →
      ∃ pre suf, sortOrphanFolders l = pre ++ d :: suf ∧
        isDirEmptyB (pre.foldl pofStep (st, [])).1 d = true) := by
  refine ⟨sortOrphanFolders_perm l, sortOrphanFolders_length_sorted l,
    sortOrphanFolders_child_first l, ?_⟩
  intro st d hd
  rw [processOrphanFolders_eq_foldl] at hd
  rcases pof_removed_spec (sortOrphanFolders l) st [] d hd with hl | hspec
  · exact absurd hl (List.not_mem_nil d)
  · exact hspec

theorem c9_witness :
    ∃ pre suf, sortOrphanFolders ["/a", "/a/b"] = pre ++ "/a" :: suf ∧
      isDirEmptyB (pre.foldl pofStep (["/a", "/a/b"], [])).1 "/a" = true :=
  (c9_amended_folder_pass ["/a", "/a/b"]).2.2.2 ["/a", "/a/b"] "/a" (by decide)

/-- C10: the per-path result cache of `HasPath` is keyed by the raw path
alone — once `HasPath(p, m1)` has been called, a subsequent
`HasPath(p, m2)` returns the first call's result whatever `m2` is. -/
theorem c10_path_cache_ignores_mapping (s : TFMState) (p : String)
    (m1 m2 : List (String × String)) :
    (HasPathS (HasPathS s p m1).2 p m2).1 = (HasPathS s p m1).1 := by
  cases hc : alookup p s.pathCache with
  | some v =>
    rw [hasPathS_cache_hit m1 hc, hasPathS_cache_hit m2 hc]
  | none =>
    have h2 : alookup p (HasPathS s p m1).2.pathCache =
        some (HasPathS s p m1).1 := by
      rw [hasPathS_cache_miss m1 hc, alookup_append_of_none _ _ _ hc]
      simp [alookup]
    rw [hasPathS_cache_hit m2 h2]

theorem c10_witness :
    (HasPathS (HasPathS (NewS [tA]) "/d" [("/x", "/y")]).2 "/d" []).1 =
      (HasPathS (NewS [tA]) "/d" [("/x", "/y")]).1 :=
  c10_path_cache_ignores_mapping (NewS [tA]) "/d" [("/x", "/y")] []

end Tqm
